import Mathlib

/-!
# Verification of the roomista data-integrity migration scripts

Shallow embedding of the per-document transformation logic and the batched
run loop shared by `migrate_case_style.py`, `migrate_name_fields_i18n.py`,
`migrate_data_schema.py` and `migrate_content_fields_i18n.py`, together
with theorems settling the specification's testable properties.

Documents are association lists from field names to dynamically typed
values, mirroring the Python `dict` returned by `doc.to_dict()`.  Update
payloads are ordered lists of `(field, op)` pairs mirroring the insertion
order of the Python `update_data` dict (a later assignment to the same key
overwrites an earlier one, which the ordered list reproduces by giving the
last occurrence of a key priority when the payload is applied).
-/

namespace Roomista

/-- A dynamically typed Firestore field value.  Timestamps are modelled as
integer microseconds since the Unix epoch (the precision of Python
`datetime`); numbers as integers (`vBool` doubles as the Python `bool`,
which is an `int` subclass and hence also matches
`isinstance(x, (int, float))`).  Nested maps and other scalar values are
never matched by any rule and behave exactly like `vNull` throughout, so a
single opaque constructor `vNull` stands for all of them. -/
inductive Value : Type where
  | vNull : Value
  | vBool : Bool → Value
  | vInt : Int → Value
  | vStr : String → Value
  | vTimestamp : Int → Value
  | vList : List Value → Value

mutual

/-- Boolean equality on values, written by hand because of the nested
list constructor. -/
def Value.beq : Value → Value → Bool
  | Value.vNull, Value.vNull => true
  | Value.vBool a, Value.vBool b => a == b
  | Value.vInt a, Value.vInt b => a == b
  | Value.vStr a, Value.vStr b => a == b
  | Value.vTimestamp a, Value.vTimestamp b => a == b
  | Value.vList xs, Value.vList ys => Value.beqList xs ys
  | _, _ => false

def Value.beqList : List Value → List Value → Bool
  | [], [] => true
  | x :: xs, y :: ys => Value.beq x y && Value.beqList xs ys
  | _ :: _, [] => false
  | [], _ :: _ => false

end

mutual

theorem Value.beq_iff : ∀ a b : Value, (Value.beq a b = true) ↔ a = b
  | Value.vNull, b => by cases b <;> simp [Value.beq]
  | Value.vBool a, b => by cases b <;> simp [Value.beq]
  | Value.vInt a, b => by cases b <;> simp [Value.beq]
  | Value.vStr a, b => by cases b <;> simp [Value.beq]
  | Value.vTimestamp a, b => by cases b <;> simp [Value.beq]
  | Value.vList xs, Value.vNull => by simp [Value.beq]
  | Value.vList xs, Value.vBool _ => by simp [Value.beq]
  | Value.vList xs, Value.vInt _ => by simp [Value.beq]
  | Value.vList xs, Value.vStr _ => by simp [Value.beq]
  | Value.vList xs, Value.vTimestamp _ => by simp [Value.beq]
  | Value.vList xs, Value.vList ys => by
      simp [Value.beq, Value.beqList_iff xs ys]

theorem Value.beqList_iff : ∀ xs ys : List Value, (Value.beqList xs ys = true) ↔ xs = ys
  | [], [] => by simp [Value.beqList]
  | [], _ :: _ => by simp [Value.beqList]
  | _ :: _, [] => by simp [Value.beqList]
  | x :: xs, y :: ys => by
      simp [Value.beqList, Value.beq_iff x y, Value.beqList_iff xs ys]

end

instance : DecidableEq Value := fun a b =>
  decidable_of_iff _ (Value.beq_iff a b)

/-- A document's field map, as streamed from the store. -/
abbrev Doc := List (String × Value)

/-- First-match lookup, the semantics of `data[k]` / `k in data`. -/
def getField (d : Doc) (k : String) : Option Value :=
  match d with
  | [] => none
  | e :: rest => if e.1 = k then some e.2 else getField rest k

/-- `k in data` in Python. -/
def hasField (d : Doc) (k : String) : Bool :=
  (getField d k).isSome

/-- One staged field change: a new value, or the `firestore.DELETE_FIELD`
sentinel. -/
inductive FieldOp : Type where
  | setVal : Value → FieldOp
  | delField : FieldOp
  deriving DecidableEq

/-- The `update_data` dict built per document, in insertion order. -/
abbrev Payload := List (String × FieldOp)

/-- Set a field: replace the value in place when present, append otherwise. -/
def setField (d : Doc) (k : String) (v : Value) : Doc :=
  if hasField d k then d.map (fun e => if e.1 = k then (k, v) else e)
  else d ++ [(k, v)]

/-- Delete a field (the effect of the `DELETE_FIELD` sentinel). -/
def removeField (d : Doc) (k : String) : Doc :=
  d.filter (fun e => !(e.1 = k))

/-- Apply one staged change to a document. -/
def applyOp (d : Doc) (e : String × FieldOp) : Doc :=
  match e.2 with
  | FieldOp.setVal v => setField d e.1 v
  | FieldOp.delField => removeField d e.1

/-- Apply a whole update payload; a later entry for the same key wins, as in
the Python dict. -/
def applyPayload (d : Doc) (p : Payload) : Doc :=
  p.foldl applyOp d

/-- The last operation staged for key `k` in payload `p`, i.e. the one that
survives in the Python `update_data` dict. -/
def lastOp (p : Payload) (k : String) : Option FieldOp :=
  match p with
  | [] => none
  | e :: rest =>
    match lastOp rest k with
    | some op => some op
    | none => if e.1 = k then some e.2 else none

theorem getField_mapReplace_self (d : Doc) (k : String) (v : Value)
    (h : hasField d k = true) :
    getField (d.map (fun e => if e.1 = k then (k, v) else e)) k = some v := by
  induction d with
  | nil => simp [hasField, getField] at h
  | cons e rest ih =>
    by_cases he : e.1 = k
    · simp [getField, he]
    · have h' : hasField rest k = true := by
        simpa [hasField, getField, he] using h
      simpa [getField, he] using ih h'

theorem getField_mapReplace_other (d : Doc) (k k' : String) (v : Value)
    (hne : k' ≠ k) :
    getField (d.map (fun e => if e.1 = k then (k, v) else e)) k' = getField d k' := by
  induction d with
  | nil => rfl
  | cons e rest ih =>
    by_cases he : e.1 = k
    · have h1 : ¬ (k = k') := fun h => hne h.symm
      have h2 : ¬ (e.1 = k') := by rw [he]; exact h1
      simp [getField, he, h1, h2, ih]
    · by_cases he' : e.1 = k'
      · simp [getField, he, he', hne]
      · simp [getField, he, he', ih]

theorem getField_appendOne_self (d : Doc) (k : String) (v : Value)
    (h : getField d k = none) :
    getField (d ++ [(k, v)]) k = some v := by
  induction d with
  | nil => simp [getField]
  | cons e rest ih =>
    by_cases he : e.1 = k
    · simp [getField, he] at h
    · simp only [getField, he, if_false] at h
      simpa [getField, he] using ih h

theorem getField_appendOne_other (d : Doc) (k k' : String) (v : Value)
    (hne : k' ≠ k) :
    getField (d ++ [(k, v)]) k' = getField d k' := by
  induction d with
  | nil => simp [getField, Ne.symm hne]
  | cons e rest ih =>
    by_cases he : e.1 = k'
    · simp [getField, he]
    · simp [getField, he, ih]

theorem getField_setField_self (d : Doc) (k : String) (v : Value) :
    getField (setField d k v) k = some v := by
  unfold setField
  by_cases h : hasField d k
  · simp only [h, if_true]
    exact getField_mapReplace_self d k v h
  · simp only [h, if_false]
    have : getField d k = none := by
      cases hg : getField d k with
      | none => rfl
      | some v' => exact absurd (by simp [hasField, hg]) h
    exact getField_appendOne_self d k v this

theorem getField_setField_other (d : Doc) (k k' : String) (v : Value)
    (hne : k' ≠ k) : getField (setField d k v) k' = getField d k' := by
  unfold setField
  by_cases h : hasField d k
  · simp only [h, if_true]
    exact getField_mapReplace_other d k k' v hne
  · simp only [h, if_false]
    exact getField_appendOne_other d k k' v hne

theorem getField_removeField_self (d : Doc) (k : String) :
    getField (removeField d k) k = none := by
  induction d with
  | nil => rfl
  | cons e rest ih =>
    by_cases he : e.1 = k
    · simpa [removeField, List.filter_cons, he] using ih
    · simpa [removeField, List.filter_cons, he, getField] using ih

theorem getField_removeField_other (d : Doc) (k k' : String) (hne : k' ≠ k) :
    getField (removeField d k) k' = getField d k' := by
  induction d with
  | nil => rfl
  | cons e rest ih =>
    by_cases he : e.1 = k
    · simpa [removeField, List.filter_cons, he, getField, Ne.symm hne] using ih
    · by_cases he' : e.1 = k'
      · simp [removeField, List.filter_cons, he, getField, he', hne]
      · simpa [removeField, List.filter_cons, he, getField, he'] using ih

theorem getField_applyOp (d : Doc) (e : String × FieldOp) (k : String) :
    getField (applyOp d e) k =
      if e.1 = k then
        (match e.2 with
         | FieldOp.setVal v => some v
         | FieldOp.delField => none)
      else getField d k := by
  by_cases h : e.1 = k
  · subst h
    cases hop : e.2 with
    | setVal v => simp [applyOp, hop, getField_setField_self]
    | delField => simp [applyOp, hop, getField_removeField_self]
  · cases hop : e.2 with
    | setVal v =>
      simp [applyOp, hop, h, getField_setField_other d e.1 k v fun hk => h hk.symm]
    | delField =>
      simp [applyOp, hop, h, getField_removeField_other d e.1 k fun hk => h hk.symm]

/-- Master lemma: the value of a field after applying a payload is decided
by the last staged operation on that field, and is untouched when the
payload never mentions it. -/
theorem getField_applyPayload (p : Payload) (d : Doc) (k : String) :
    getField (applyPayload d p) k =
      match lastOp p k with
      | some (FieldOp.setVal v) => some v
      | some FieldOp.delField => none
      | none => getField d k := by
  induction p generalizing d with
  | nil => rfl
  | cons e rest ih =>
    show getField (applyPayload (applyOp d e) rest) k = _
    rw [ih]
    cases hrest : lastOp rest k with
    | some op =>
      have hcons : lastOp (e :: rest) k = some op := by simp [lastOp, hrest]
      rw [hcons]
      cases op <;> rfl
    | none =>
      have hcons : lastOp (e :: rest) k =
          if e.1 = k then some e.2 else none := by simp [lastOp, hrest]
      rw [hcons, getField_applyOp]
      by_cases h : e.1 = k
      · simp only [h, if_true]
        cases e.2 <;> rfl
      · simp only [h, if_false]

/-- A payload that never mentions `k` has no last operation on `k`. -/
theorem lastOp_eq_none (p : Payload) (k : String)
    (h : ∀ e ∈ p, e.1 ≠ k) : lastOp p k = none := by
  induction p with
  | nil => rfl
  | cons e rest ih =>
    have hrest : lastOp rest k = none := ih fun x hx => h x (List.mem_cons_of_mem _ hx)
    simp [lastOp, hrest, h e (List.mem_cons_self _ _)]

/-- Fields never mentioned by a payload keep their value. -/
theorem getField_applyPayload_frame (p : Payload) (d : Doc) (k : String)
    (h : ∀ e ∈ p, e.1 ≠ k) :
    getField (applyPayload d p) k = getField d k := by
  rw [getField_applyPayload, lastOp_eq_none p k h]

/-- `lastOp` over a concatenation: the right part has priority. -/
theorem lastOp_append (p q : Payload) (k : String) :
    lastOp (p ++ q) k =
      match lastOp q k with
      | some op => some op
      | none => lastOp p k := by
  induction p with
  | nil =>
    simp only [List.nil_append]
    cases lastOp q k <;> rfl
  | cons e rest ih =>
    show lastOp (e :: (rest ++ q)) k = _
    simp only [lastOp, ih]
    cases lastOp q k <;> cases lastOp rest k <;> rfl

end Roomista

/-!
## The rename engine

Per-document logic of `migrate_collection` in `migrate_case_style.py`:
for each `(old_name, new_name)` pair of the field map, when `old_name` is
present the payload stages `new_name = data[old_name]` followed by
`old_name = DELETE_FIELD`, in field-map order.
-/

namespace Roomista

def renamePayload (fieldMap : List (String × String)) (d : Doc) : Payload :=
  match fieldMap with
  | [] => []
  | pr :: rest =>
    (match getField d pr.1 with
     | some v => [(pr.2, FieldOp.setVal v), (pr.1, FieldOp.delField)]
     | none => []) ++ renamePayload rest d

/-- Effect of `migrate_case_style`'s staged update on one document. -/
def caseApply (fieldMap : List (String × String)) (d : Doc) : Doc :=
  applyPayload d (renamePayload fieldMap d)

/-- `LISTINGS_FIELD_MAP` of `migrate_case_style.py`. -/
def LISTINGS_FIELD_MAP : List (String × String) := [
  ("acceptsStudents", "accepts_students"),
  ("availableFrom", "available_from"),
  ("availableFrom_unix", "available_from_unix"),
  ("bathroomCount", "bathroom_count"),
  ("coverImageUrl", "cover_image_url"),
  ("createdAt", "created_at"),
  ("createdAt_unix", "created_at_unix"),
  ("descriptionEn", "description_en"),
  ("descriptionEs", "description_es"),
  ("hasAC", "has_ac"),
  ("hasDoorman", "has_doorman"),
  ("hasElevator", "has_elevator"),
  ("hasLivingRoom", "has_living_room"),
  ("hasWifi", "has_wifi"),
  ("imageUrls", "image_urls"),
  ("isFurnished", "is_furnished"),
  ("landlordName", "landlord_name"),
  ("landlordUid", "landlord_uid"),
  ("minimumStayMonths", "minimum_stay_months"),
  ("petsAllowed", "pets_allowed"),
  ("propertyStrengthsEn", "property_strengths_en"),
  ("propertyStrengthsEs", "property_strengths_es"),
  ("rentalType", "rental_type"),
  ("roomCount", "room_count"),
  ("smokingAllowed", "smoking_allowed"),
  ("sourceLanguage", "source_language"),
  ("tenantStrengthsSearchedEn", "tenant_strengths_searched_en"),
  ("tenantStrengthsSearchedEs", "tenant_strengths_searched_es"),
  ("titleEn", "title_en"),
  ("titleEs", "title_es"),
  ("updatedAt", "updated_at"),
  ("updatedAt_unix", "updated_at_unix")]

/-- `USERS_FIELD_MAP` of `migrate_case_style.py`. -/
def USERS_FIELD_MAP : List (String × String) := [
  ("bioEn", "bio_en"),
  ("bioEs", "bio_es"),
  ("createdAt", "created_at"),
  ("createdAt_unix", "created_at_unix"),
  ("displayName", "display_name"),
  ("idVerificationStatus", "id_verification_status"),
  ("isVerified", "is_verified"),
  ("photoURL", "photo_url"),
  ("propertyStrengthsSearchedEn", "property_strengths_searched_en"),
  ("propertyStrengthsSearchedEs", "property_strengths_searched_es"),
  ("sourceLanguage", "source_language"),
  ("tenantStrengthsEn", "tenant_strengths_en"),
  ("tenantStrengthsEs", "tenant_strengths_es"),
  ("desiredMoveInDate", "desired_move_in_date"),
  ("desiredMoveInDate_unix", "desired_move_in_date_unix"),
  ("desiredMoveOutDate", "desired_move_out_date"),
  ("desiredMoveOutDate_unix", "desired_move_out_date_unix"),
  ("genderEn", "gender_en"),
  ("genderEs", "gender_es"),
  ("hasPets", "has_pets"),
  ("minimumStayMonths", "minimum_stay_months"),
  ("needsAC", "needs_ac"),
  ("needsElevator", "needs_elevator"),
  ("needsFurnished", "needs_furnished"),
  ("needsLivingRoom", "needs_living_room"),
  ("needsWifi", "needs_wifi"),
  ("professionEn", "profession_en"),
  ("professionEs", "profession_es"),
  ("rentalType", "rental_type"),
  ("roomistaPhotoURL", "roomista_photo_url"),
  ("searchAddress", "search_address"),
  ("searchBudget", "search_budget"),
  ("searchLocation", "search_location"),
  ("searchRadius", "search_radius"),
  ("strengthsRoommateEn", "strengths_roommate_en"),
  ("strengthsRoommateEs", "strengths_roommate_es")]

/-!
## The i18n schema engine

Per-document logic of `migrate_listings` in `migrate_name_fields_i18n.py`
(file header `migrate_i18n_schema.py`): first the `source_language`
default keyed on the absence of `sourceLanguage`, then the renames, then
the deletions, in that payload order.
-/

/-- `fields_to_delete` staging: a `DELETE_FIELD` per present field. -/
def deletePayload (fields : List String) (d : Doc) : Payload :=
  match fields with
  | [] => []
  | f :: rest =>
    (if hasField d f then [(f, FieldOp.delField)] else []) ++ deletePayload rest d

/-- `fields_to_delete` of `migrate_listings`. -/
def I18N_LISTINGS_FIELDS_TO_DELETE : List String :=
  ["description_es", "propertyStrengths_es", "tenantStrengthsSearched_es",
   "title_es", "sourceLanguage"]

/-- `fields_to_rename` of `migrate_listings`. -/
def I18N_LISTINGS_FIELDS_TO_RENAME : List (String × String) := [
  ("availableUntil_unix", "available_until_unix"),
  ("availableUntilUnix", "available_until_unix"),
  ("availableUntil", "available_until"),
  ("availableFromUnix", "available_from_unix"),
  ("createdAtUnix", "created_at_unix"),
  ("createdAt", "created_at"),
  ("propertyStrengths", "property_strengths"),
  ("tenantStrengthsSearched", "tenant_strengths_searched"),
  ("updatedAtUnix", "updated_at_unix"),
  ("updatedAt", "updated_at")]

/-- The staged update of `migrate_name_fields_i18n.migrate_listings` for
one document. -/
def i18nListingsPayload (d : Doc) : Payload :=
  (if hasField d "sourceLanguage" then []
   else [("source_language", FieldOp.setVal (Value.vStr "en"))])
  ++ renamePayload I18N_LISTINGS_FIELDS_TO_RENAME d
  ++ deletePayload I18N_LISTINGS_FIELDS_TO_DELETE d

def i18nListingsApply (d : Doc) : Doc :=
  applyPayload d (i18nListingsPayload d)

/-!
## The schema engine

Per-document logic of `migrate_listings` in `migrate_data_schema.py`:
derive `<field>_unix` from timestamp-typed `availableFrom`/`availableUntil`,
and coerce numeric `createdAt`/`updatedAt` (milliseconds) to timestamps.
-/

/-- `isinstance(x, (int, float))` on a model value, returning the number.
Python `bool` is an `int` subclass (`True == 1`), so it also matches.
Numeric fields carry integers in the model; the float doubling is exact at
the magnitudes the scripts handle. -/
def Value.asNumber : Value → Option Int
  | Value.vInt n => some n
  | Value.vBool b => some (if b then 1 else 0)
  | _ => none

/-- `int(data[field].timestamp())`: epoch seconds of a timestamp of `m`
microseconds, truncated toward zero exactly as Python `int()` truncates;
`Int.tdiv` is Lean's truncating division. -/
def timestampSeconds (m : Int) : Int := Int.tdiv m 1000000

/-- Staging of `update_data[f'{field}_unix'] = int(data[field].timestamp())`
for each listed field that is present with timestamp type. -/
def unixBackfillPayload (fields : List String) (d : Doc) : Payload :=
  match fields with
  | [] => []
  | f :: rest =>
    (match getField d f with
     | some (Value.vTimestamp m) =>
       [(f ++ "_unix", FieldOp.setVal (Value.vInt (timestampSeconds m)))]
     | _ => []) ++ unixBackfillPayload rest d

/-- Staging of `update_data[field] = datetime.fromtimestamp(data[field] / 1000.0,
tz=timezone.utc)` for each listed field that is present with numeric type:
`n` milliseconds become a timestamp of `n * 1000` microseconds. -/
def msToTimestampPayload (fields : List String) (d : Doc) : Payload :=
  match fields with
  | [] => []
  | f :: rest =>
    (match getField d f with
     | some v =>
       (match v.asNumber with
        | some n => [(f, FieldOp.setVal (Value.vTimestamp (n * 1000)))]
        | none => [])
     | none => []) ++ msToTimestampPayload rest d

/-- The staged update of `migrate_data_schema.migrate_listings` for one
document. -/
def schemaListingsPayload (d : Doc) : Payload :=
  unixBackfillPayload ["availableFrom", "availableUntil"] d
    ++ msToTimestampPayload ["createdAt", "updatedAt"] d

def schemaListingsApply (d : Doc) : Doc :=
  applyPayload d (schemaListingsPayload d)

end Roomista

/-!
## The content translation engine

Per-document logic of `migrate_collection_content` in
`migrate_content_fields_i18n.py`: for each `(field, conversion_map)` rule
with `field` present, a list value is translated element-wise (staged only
when some element changed), and a string value is staged when
`conversion_map.get(value)` is truthy (a non-empty mapped string).
-/

namespace Roomista

/-- A `conversion_map`: string-to-string, first match wins as in a dict. -/
abbrev VMap := List (String × String)

def lookupStr (m : VMap) (s : String) : Option String :=
  match m with
  | [] => none
  | e :: rest => if e.1 = s then some e.2 else lookupStr rest s

/-- `conversion_map.get(item, item)`: translate a string element found in
the map, pass everything else through unchanged. -/
def trElem (m : VMap) (v : Value) : Value :=
  match v with
  | Value.vStr s =>
    (match lookupStr m s with
     | some t => Value.vStr t
     | none => v)
  | _ => v

/-- The list loop: builds `new_list` and the `made_a_change` flag. -/
def translateSeq (m : VMap) (xs : List Value) : List Value × Bool :=
  match xs with
  | [] => ([], false)
  | x :: rest =>
    let t := trElem m x
    let p := translateSeq m rest
    (t :: p.1, (decide (t ≠ x) || p.2))

/-- The staged operation for one rule on one present field value, or
`none` when nothing is staged.  For a string value the code stages the
translation under `if translated_value:`, i.e. only a found, non-empty
mapped value (Python truthiness); every configured map only has non-empty
values. -/
def stageContentField (m : VMap) (v : Value) : Option FieldOp :=
  match v with
  | Value.vList xs =>
    let p := translateSeq m xs
    if p.2 then some (FieldOp.setVal (Value.vList p.1)) else none
  | Value.vStr s =>
    (match lookupStr m s with
     | some t => if t = "" then none else some (FieldOp.setVal (Value.vStr t))
     | none => none)
  | _ => none

/-- The staged update of `migrate_collection_content` for one document,
iterating the collection's conversion rules in order. -/
def contentPayload (rules : List (String × VMap)) (d : Doc) : Payload :=
  match rules with
  | [] => []
  | r :: rest =>
    (match getField d r.1 with
     | some v =>
       (match stageContentField r.2 v with
        | some op => [(r.1, op)]
        | none => [])
     | none => []) ++ contentPayload rest d

def contentApply (rules : List (String × VMap)) (d : Doc) : Doc :=
  applyPayload d (contentPayload rules d)

/-- `CONTENT_CONVERSION_MAP["users"]` of `migrate_content_fields_i18n.py`. -/
def USERS_CONTENT_RULES : List (String × VMap) := [
  ("flatmate_traits", [
    ("Independencia", "independence"),
    ("Respeto", "respect"),
    ("Confianza", "trustworthiness"),
    ("Limpieza", "cleanliness"),
    ("Sociabilidad", "sociability")]),
  ("gender", [
    ("Hombre", "male"),
    ("Mujer", "female"),
    ("Otro", "other")]),
  ("profile_status", [
    ("iniciado", "started"),
    ("documento_creado", "document_created"),
    ("completado", "completed"),
    ("fallido", "failed")]),
  ("property_strengths_searched", [
    ("Encanto/Estilo", "charm_style"),
    ("Insonorización", "sound_proofing"),
    ("Luminosidad", "brightness"),
    ("Vistas", "views"),
    ("Ambiente comunitario", "community_atmosphere"),
    ("Tamaño", "size")]),
  ("rental_type", [
    ("propiedadEntera", "entire_property"),
    ("habitacion", "room")]),
  ("role", [
    ("inquilino", "tenant"),
    ("casero", "landlord")]),
  ("strengths_roommate", [
    ("Flexibilidad y adaptación", "flexibility_and_adaptation"),
    ("Comunicación abierta", "open_communication"),
    ("Aporto buen ambiente", "i_bring_a_good_atmosphere"),
    ("Respetuoso con el espacio", "respectful_of_space"),
    ("Responsabilidad doméstica", "domestic_responsibility"),
    ("Organización y limpieza", "organization_and_cleanliness")]),
  ("tenant_strengths", [
    ("Contractual Responsibility", "contractual_responsibility"),
    ("Respect for the Community", "community_respect"),
    ("Property care", "property_care"),
    ("Clear Communication", "clear_communication")]),
  ("id_verification_status", [
    ("Verified", "verified"),
    ("Pending", "pending"),
    ("Not_started", "not_started"),
    ("Failed", "failed")])]

/-- `CONTENT_CONVERSION_MAP["listings"]` of
`migrate_content_fields_i18n.py`. -/
def LISTINGS_CONTENT_RULES : List (String × VMap) := [
  ("property_strengths", [
    ("Charm/Style", "charm_style"),
    ("Soundproofing", "sound_proofing"),
    ("Brightness", "brightness"),
    ("Views", "views"),
    ("Community Atmosphere", "community_atmosphere"),
    ("Size", "size")]),
  ("rental_type", [
    ("entireProperty", "entire_property"),
    ("room", "room")]),
  ("tenant_strengths_searched", [
    ("Contractual Responsibility", "contractual_responsibility"),
    ("respect_for_the_community", "community_respect"),
    ("Property care", "property_care"),
    ("Clear Communication", "clear_communication")])]

/-!
## The batched run loop

Shared by all four migration scripts: stream the collection, stage one
`batch.update` per document with a non-empty payload, commit the batch at
every 499th staged update, and after the loop issue a final commit
whenever at least one update was staged (`if docs_processed > 0`), even if
the remaining batch happens to be empty.
-/

/-- One staged `batch.update(doc.reference, update_data)`. -/
abbrev StagedUpdate := String × Payload

/-- The loop state: the in-flight batch, the batches committed so far in
commit order, and the `docs_processed` / `updates_planned` counter of
staged updates. -/
structure RunState where
  batch : List StagedUpdate
  commits : List (List StagedUpdate)
  staged : Nat
  deriving DecidableEq

def initState : RunState := ⟨[], [], 0⟩

/-- The body of the `for doc in docs:` loop for one document. -/
def stepDoc (payloadFn : Doc → Payload) (st : RunState) (doc : String × Doc) :
    RunState :=
  let p := payloadFn doc.2
  if p = [] then st
  else
    let b := st.batch ++ [(doc.1, p)]
    let n := st.staged + 1
    if n % 499 = 0 then ⟨[], st.commits ++ [b], n⟩
    else ⟨b, st.commits, n⟩

/-- State after streaming a list of `(doc_id, field_map)` documents. -/
def runLoop (payloadFn : Doc → Payload) (docs : List (String × Doc)) : RunState :=
  docs.foldl (stepDoc payloadFn) initState

/-- All committed batches of a run, in commit order: the in-loop commits
followed by the final commit, which is issued exactly when
`docs_processed > 0`. -/
def runCommits (payloadFn : Doc → Payload) (docs : List (String × Doc)) :
    List (List StagedUpdate) :=
  let st := runLoop payloadFn docs
  if st.staged > 0 then st.commits ++ [st.batch] else st.commits

/-- The updated-document count printed by the final summary. -/
def reportedCount (payloadFn : Doc → Payload) (docs : List (String × Doc)) : Nat :=
  (runLoop payloadFn docs).staged

/-- The documents a run stages, in stream order, with their payloads. -/
def stagedUpdates (payloadFn : Doc → Payload) (docs : List (String × Doc)) :
    List StagedUpdate :=
  (docs.filter (fun x => !(payloadFn x.2 = []))).map
    (fun x => (x.1, payloadFn x.2))

end Roomista

/-!
## Payload key analysis

Which field names each engine's payload can mention, and the last staged
operation on the keys the claims talk about.
-/

namespace Roomista

theorem renamePayload_keys (fm : List (String × String)) (d : Doc) :
    ∀ e ∈ renamePayload fm d,
      ∃ pr ∈ fm, getField d pr.1 ≠ none ∧ (e.1 = pr.1 ∨ e.1 = pr.2) := by
  induction fm with
  | nil => intro e he; simp [renamePayload] at he
  | cons pr rest ih =>
    intro e he
    simp only [renamePayload] at he
    cases hg : getField d pr.1 with
    | none =>
      rw [hg] at he
      simp only [List.nil_append] at he
      obtain ⟨pr', h1, h2, h3⟩ := ih e he
      exact ⟨pr', List.mem_cons_of_mem _ h1, h2, h3⟩
    | some v =>
      rw [hg] at he
      simp only [List.cons_append, List.nil_append, List.mem_cons] at he
      rcases he with rfl | he
      · exact ⟨pr, List.mem_cons_self _ _, by rw [hg]; exact fun h => Option.noConfusion h,
          Or.inr rfl⟩
      rcases he with rfl | he
      · exact ⟨pr, List.mem_cons_self _ _, by rw [hg]; exact fun h => Option.noConfusion h,
          Or.inl rfl⟩
      · obtain ⟨pr', h1, h2, h3⟩ := ih e he
        exact ⟨pr', List.mem_cons_of_mem _ h1, h2, h3⟩

theorem deletePayload_keys (fs : List String) (d : Doc) :
    ∀ e ∈ deletePayload fs d, e.1 ∈ fs := by
  induction fs with
  | nil => intro e he; simp [deletePayload] at he
  | cons f rest ih =>
    intro e he
    simp only [deletePayload] at he
    by_cases hf : hasField d f
    · rw [if_pos hf] at he
      simp only [List.cons_append, List.nil_append, List.mem_cons] at he
      rcases he with rfl | he
      · exact List.mem_cons_self _ _
      · exact List.mem_cons_of_mem _ (ih e he)
    · rw [if_neg hf] at he
      simp only [List.nil_append] at he
      exact List.mem_cons_of_mem _ (ih e he)

theorem unixBackfillPayload_keys (fs : List String) (d : Doc) :
    ∀ e ∈ unixBackfillPayload fs d, ∃ f ∈ fs, e.1 = f ++ "_unix" := by
  induction fs with
  | nil => intro e he; simp [unixBackfillPayload] at he
  | cons f rest ih =>
    intro e he
    simp only [unixBackfillPayload] at he
    cases hg : getField d f with
    | none =>
      rw [hg] at he
      simp only [List.nil_append] at he
      obtain ⟨f', h1, h2⟩ := ih e he
      exact ⟨f', List.mem_cons_of_mem _ h1, h2⟩
    | some v =>
      rw [hg] at he
      cases v with
      | vTimestamp m =>
        simp only [List.cons_append, List.nil_append, List.mem_cons] at he
        rcases he with rfl | he
        · exact ⟨f, List.mem_cons_self _ _, rfl⟩
        · obtain ⟨f', h1, h2⟩ := ih e he
          exact ⟨f', List.mem_cons_of_mem _ h1, h2⟩
      | vNull =>
        simp only [List.nil_append] at he
        obtain ⟨f', h1, h2⟩ := ih e he
        exact ⟨f', List.mem_cons_of_mem _ h1, h2⟩
      | vBool b =>
        simp only [List.nil_append] at he
        obtain ⟨f', h1, h2⟩ := ih e he
        exact ⟨f', List.mem_cons_of_mem _ h1, h2⟩
      | vInt n =>
        simp only [List.nil_append] at he
        obtain ⟨f', h1, h2⟩ := ih e he
        exact ⟨f', List.mem_cons_of_mem _ h1, h2⟩
      | vStr s =>
        simp only [List.nil_append] at he
        obtain ⟨f', h1, h2⟩ := ih e he
        exact ⟨f', List.mem_cons_of_mem _ h1, h2⟩
      | vList xs =>
        simp only [List.nil_append] at he
        obtain ⟨f', h1, h2⟩ := ih e he
        exact ⟨f', List.mem_cons_of_mem _ h1, h2⟩

theorem msToTimestampPayload_keys (fs : List String) (d : Doc) :
    ∀ e ∈ msToTimestampPayload fs d, e.1 ∈ fs := by
  induction fs with
  | nil => intro e he; simp [msToTimestampPayload] at he
  | cons f rest ih =>
    intro e he
    simp only [msToTimestampPayload] at he
    cases hg : getField d f with
    | none =>
      rw [hg] at he
      simp only [List.nil_append] at he
      exact List.mem_cons_of_mem _ (ih e he)
    | some v =>
      rw [hg] at he
      cases v with
      | vInt n =>
        simp only [Value.asNumber, List.cons_append, List.nil_append,
          List.mem_cons] at he
        rcases he with rfl | he
        · exact List.mem_cons_self _ _
        · exact List.mem_cons_of_mem _ (ih e he)
      | vBool b =>
        simp only [Value.asNumber, List.cons_append, List.nil_append,
          List.mem_cons] at he
        rcases he with rfl | he
        · exact List.mem_cons_self _ _
        · exact List.mem_cons_of_mem _ (ih e he)
      | vNull =>
        simp only [Value.asNumber, List.nil_append] at he
        exact List.mem_cons_of_mem _ (ih e he)
      | vStr s =>
        simp only [Value.asNumber, List.nil_append] at he
        exact List.mem_cons_of_mem _ (ih e he)
      | vTimestamp m =>
        simp only [Value.asNumber, List.nil_append] at he
        exact List.mem_cons_of_mem _ (ih e he)
      | vList xs =>
        simp only [Value.asNumber, List.nil_append] at he
        exact List.mem_cons_of_mem _ (ih e he)

theorem contentPayload_keys (rules : List (String × VMap)) (d : Doc) :
    ∀ e ∈ contentPayload rules d, ∃ r ∈ rules, e.1 = r.1 := by
  induction rules with
  | nil => intro e he; simp [contentPayload] at he
  | cons r rest ih =>
    intro e he
    simp only [contentPayload] at he
    cases hg : getField d r.1 with
    | none =>
      rw [hg] at he
      simp only [List.nil_append] at he
      obtain ⟨r', h1, h2⟩ := ih e he
      exact ⟨r', List.mem_cons_of_mem _ h1, h2⟩
    | some v =>
      rw [hg] at he
      have he2 : e ∈ (match stageContentField r.2 v with
          | some op => [(r.1, op)]
          | none => []) ++ contentPayload rest d := he
      cases hs : stageContentField r.2 v with
      | none =>
        rw [hs] at he2
        simp only [List.nil_append] at he2
        obtain ⟨r', h1, h2⟩ := ih e he2
        exact ⟨r', List.mem_cons_of_mem _ h1, h2⟩
      | some op =>
        rw [hs] at he2
        simp only [List.cons_append, List.nil_append, List.mem_cons] at he2
        rcases he2 with rfl | he2
        · exact ⟨r, List.mem_cons_self _ _, rfl⟩
        · obtain ⟨r', h1, h2⟩ := ih e he2
          exact ⟨r', List.mem_cons_of_mem _ h1, h2⟩

end Roomista

namespace Roomista

/-- The last operation staged for a rename target `n` is the copied value
of its (unique applicable) source, provided `n` itself is absent. -/
theorem lastOp_renamePayload_target (fm : List (String × String)) (d : Doc)
    (o n : String) (v : Value)
    (hmem : (o, n) ∈ fm)
    (hv : getField d o = some v)
    (hn : getField d n = none)
    (huniq : ∀ pr ∈ fm, pr.2 = n → pr = (o, n) ∨ getField d pr.1 = none) :
    lastOp (renamePayload fm d) n = some (FieldOp.setVal v) := by
  induction fm with
  | nil => cases hmem
  | cons pr rest ih =>
    by_cases hr : (o, n) ∈ rest
    · have hrec := ih hr (fun pr' h' hn' => huniq pr' (List.mem_cons_of_mem _ h') hn')
      simp only [renamePayload]
      rw [lastOp_append, hrec]
    · have hpr : pr = (o, n) := by
        rcases List.mem_cons.mp hmem with h | h
        · exact h.symm
        · exact absurd h hr
      subst hpr
      have hnone : lastOp (renamePayload rest d) n = none := by
        apply lastOp_eq_none
        intro e he hk
        obtain ⟨pr', h1, h2, h3⟩ := renamePayload_keys rest d e he
        rcases h3 with h3 | h3
        · rw [h3] at hk
          exact h2 (by rw [hk]; exact hn)
        · rw [h3] at hk
          rcases huniq pr' (List.mem_cons_of_mem _ h1) hk with h4 | h4
          · rw [h4] at h1; exact hr h1
          · exact h2 h4
      simp only [renamePayload]
      rw [lastOp_append, hnone]
      have hv' : getField d (o, n).1 = some v := hv
      rw [hv']
      have hon : ¬ (o = n) := by
        intro h
        rw [h] at hv
        rw [hv] at hn
        cases hn
      simp [lastOp, hon]

/-- The last operation staged for a present rename source `o` is its
deletion, provided no rename targets `o`. -/
theorem lastOp_renamePayload_source (fm : List (String × String)) (d : Doc)
    (o : String)
    (ho : getField d o ≠ none)
    (hsrc : ∃ pr ∈ fm, pr.1 = o)
    (htgt : ∀ pr ∈ fm, pr.2 ≠ o) :
    lastOp (renamePayload fm d) o = some FieldOp.delField := by
  induction fm with
  | nil => obtain ⟨pr, h, _⟩ := hsrc; cases h
  | cons pr rest ih =>
    by_cases hr : ∃ pr' ∈ rest, pr'.1 = o
    · have hrec := ih hr (fun pr' h' => htgt pr' (List.mem_cons_of_mem _ h'))
      simp only [renamePayload]
      rw [lastOp_append, hrec]
    · have hpr : pr.1 = o := by
        obtain ⟨pr', hmem, h1⟩ := hsrc
        rcases List.mem_cons.mp hmem with h | h
        · rw [h] at h1; exact h1
        · exact absurd ⟨pr', h, h1⟩ hr
      have hnone : lastOp (renamePayload rest d) o = none := by
        apply lastOp_eq_none
        intro e he hk
        obtain ⟨pr', h1, h2, h3⟩ := renamePayload_keys rest d e he
        rcases h3 with h3 | h3
        · rw [h3] at hk
          exact hr ⟨pr', h1, hk⟩
        · rw [h3] at hk
          exact htgt pr' (List.mem_cons_of_mem _ h1) hk
      simp only [renamePayload]
      rw [lastOp_append, hnone]
      cases hgv : getField d pr.1 with
      | none => rw [hpr] at hgv; exact absurd hgv ho
      | some v' =>
        simp [lastOp, hpr]

end Roomista

/-!
## Run-loop invariant

The loop state after any prefix of the stream is determined by the staged
updates so far: the counter equals their number, the in-flight batch holds
the last `count % 499` of them, every in-loop commit holds exactly 499,
and their concatenation reproduces the staged sequence in order.
-/

namespace Roomista

def GoodState (st : RunState) (seen : List StagedUpdate) : Prop :=
  st.staged = seen.length ∧
  st.commits.flatten ++ st.batch = seen ∧
  st.commits.length = seen.length / 499 ∧
  st.batch.length = seen.length % 499 ∧
  ∀ c ∈ st.commits, c.length = 499

theorem stagedUpdates_cons (fn : Doc → Payload) (x : String × Doc)
    (docs : List (String × Doc)) :
    stagedUpdates fn (x :: docs) =
      (if fn x.2 = [] then [] else [(x.1, fn x.2)]) ++ stagedUpdates fn docs := by
  by_cases hp : fn x.2 = [] <;>
    simp [stagedUpdates, hp, List.filter_cons]

theorem stepDoc_good (fn : Doc → Payload) (st : RunState)
    (seen : List StagedUpdate) (x : String × Doc) (h : GoodState st seen) :
    GoodState (stepDoc fn st x)
      (seen ++ (if fn x.2 = [] then [] else [(x.1, fn x.2)])) := by
  obtain ⟨h1, h2, h3, h4, h5⟩ := h
  by_cases hp : fn x.2 = []
  · simp only [hp, if_true, List.append_nil]
    simp only [stepDoc, hp, if_true]
    exact ⟨h1, h2, h3, h4, h5⟩
  · have hL : (seen ++ [(x.1, fn x.2)]).length = seen.length + 1 := by simp
    simp only [hp, if_false]
    simp only [stepDoc, hp, if_false]
    by_cases hm : (st.staged + 1) % 499 = 0
    · have hm2 : (seen.length + 1) % 499 = 0 := by rw [← h1]; exact hm
      simp only [hm, if_true]
      refine ⟨?_, ?_, ?_, ?_, ?_⟩
      · rw [hL, h1]
      · simp only [List.flatten_append, List.flatten_cons, List.flatten_nil,
          List.append_nil]
        rw [← List.append_assoc, h2]
      · rw [hL]
        simp only [List.length_append, List.length_cons, List.length_nil, h3]
        omega
      · rw [hL]
        simp only [List.length_nil]
        omega
      · intro c hc
        rcases List.mem_append.mp hc with hc | hc
        · exact h5 c hc
        · rw [List.mem_singleton.mp hc]
          simp only [List.length_append, List.length_cons, List.length_nil, h4]
          omega
    · have hm2 : ¬ ((seen.length + 1) % 499 = 0) := by rw [← h1]; exact hm
      simp only [hm, if_false]
      refine ⟨?_, ?_, ?_, ?_, ?_⟩
      · rw [hL, h1]
      · rw [← List.append_assoc, h2]
      · rw [hL, h3]
        omega
      · rw [hL]
        simp only [List.length_append, List.length_cons, List.length_nil, h4]
        omega
      · exact h5

theorem foldl_good (fn : Doc → Payload) :
    ∀ (docs : List (String × Doc)) (st : RunState) (seen : List StagedUpdate),
      GoodState st seen →
      GoodState (docs.foldl (stepDoc fn) st) (seen ++ stagedUpdates fn docs)
  | [], st, seen, h => by
      simpa [stagedUpdates] using h
  | x :: docs, st, seen, h => by
      have hx := stepDoc_good fn st seen x h
      have hrec := foldl_good fn docs (stepDoc fn st x) _ hx
      rw [stagedUpdates_cons, ← List.append_assoc]
      exact hrec

theorem runLoop_spec (fn : Doc → Payload) (docs : List (String × Doc)) :
    GoodState (runLoop fn docs) (stagedUpdates fn docs) := by
  have h0 : GoodState initState [] := by
    refine ⟨rfl, rfl, rfl, rfl, ?_⟩
    intro c hc
    cases hc
  have := foldl_good fn docs initState [] h0
  simpa [runLoop] using this

/-- Every run's committed updates, concatenated in commit order, are
exactly the staged updates in stream order. -/
theorem runCommits_flatten (fn : Doc → Payload) (docs : List (String × Doc)) :
    (runCommits fn docs).flatten = stagedUpdates fn docs := by
  obtain ⟨h1, h2, h3, h4, h5⟩ := runLoop_spec fn docs
  unfold runCommits
  by_cases hs : (runLoop fn docs).staged > 0
  · simp only [hs, if_true, List.flatten_append, List.flatten_cons,
      List.flatten_nil, List.append_nil]
    exact h2
  · simp only [hs, if_false]
    have hlen : (stagedUpdates fn docs).length = 0 := by omega
    have hnil : stagedUpdates fn docs = [] := List.length_eq_zero.mp hlen
    rw [hnil] at h2
    rcases List.append_eq_nil.mp h2 with ⟨hj, _⟩
    rw [hj, hnil]

/-- The number of commits a run performs: one per full 499-batch, plus a
final commit exactly when at least one update was staged. -/
theorem runCommits_length (fn : Doc → Payload) (docs : List (String × Doc)) :
    (runCommits fn docs).length =
      (stagedUpdates fn docs).length / 499 +
        (if (stagedUpdates fn docs).length = 0 then 0 else 1) := by
  obtain ⟨h1, h2, h3, h4, h5⟩ := runLoop_spec fn docs
  unfold runCommits
  by_cases hs : (runLoop fn docs).staged > 0
  · have hz : ¬ ((stagedUpdates fn docs).length = 0) := by omega
    simp only [hs, if_true, hz, if_false, List.length_append,
      List.length_cons, List.length_nil, h3]
  · have hz : (stagedUpdates fn docs).length = 0 := by omega
    simp only [hs, if_false, hz, if_true, h3]

/-- The printed updated-document count is the number of staged updates. -/
theorem reportedCount_eq (fn : Doc → Payload) (docs : List (String × Doc)) :
    reportedCount fn docs = (stagedUpdates fn docs).length :=
  (runLoop_spec fn docs).1

/-- The in-flight batch never holds 499 staged updates between loop steps. -/
theorem runLoop_batch_lt (fn : Doc → Payload) (docs : List (String × Doc)) :
    (runLoop fn docs).batch.length < 499 := by
  obtain ⟨h1, h2, h3, h4, h5⟩ := runLoop_spec fn docs
  omega

/-- Every committed batch holds at most 499 updates (in-loop ones exactly
499, the final one fewer). -/
theorem runCommits_sizes (fn : Doc → Payload) (docs : List (String × Doc)) :
    ∀ c ∈ runCommits fn docs, c.length ≤ 499 := by
  obtain ⟨h1, h2, h3, h4, h5⟩ := runLoop_spec fn docs
  intro c hc
  unfold runCommits at hc
  by_cases hs : (runLoop fn docs).staged > 0
  · rw [if_pos hs] at hc
    rcases List.mem_append.mp hc with hc | hc
    · exact le_of_eq (h5 c hc)
    · rw [List.mem_singleton.mp hc]
      omega
  · rw [if_neg hs] at hc
    exact le_of_eq (h5 c hc)

end Roomista

/-!
## Engine-specific support lemmas
-/

namespace Roomista

theorem lastOp_msToTimestamp_none (fs : List String) (d : Doc) (k : String)
    (h : ∀ f ∈ fs, f ≠ k) :
    lastOp (msToTimestampPayload fs d) k = none := by
  apply lastOp_eq_none
  intro e he hk
  exact h e.1 (msToTimestampPayload_keys fs d e he) hk

theorem lastOp_unixBackfill_none (fs : List String) (d : Doc) (k : String)
    (h : ∀ f ∈ fs, ¬ (f ++ "_unix" = k)) :
    lastOp (unixBackfillPayload fs d) k = none := by
  apply lastOp_eq_none
  intro e he hk
  obtain ⟨f, hf, hfe⟩ := unixBackfillPayload_keys fs d e he
  exact h f hf (by rw [← hfe]; exact hk)

theorem lastOp_unixBackfill_head (f : String) (rest : List String) (d : Doc)
    (m : Int) (hget : getField d f = some (Value.vTimestamp m))
    (hnone : lastOp (unixBackfillPayload rest d) (f ++ "_unix") = none) :
    lastOp (unixBackfillPayload (f :: rest) d) (f ++ "_unix") =
      some (FieldOp.setVal (Value.vInt (timestampSeconds m))) := by
  simp only [unixBackfillPayload]
  rw [hget, lastOp_append, hnone]
  simp [lastOp]

theorem lastOp_msToTimestamp_head (f : String) (rest : List String) (d : Doc)
    (n : Int) (hget : getField d f = some (Value.vInt n))
    (hnone : lastOp (msToTimestampPayload rest d) f = none) :
    lastOp (msToTimestampPayload (f :: rest) d) f =
      some (FieldOp.setVal (Value.vTimestamp (n * 1000))) := by
  simp only [msToTimestampPayload]
  rw [hget]
  simp only [Value.asNumber]
  rw [lastOp_append, hnone]
  simp [lastOp]

/-- With `availableFrom` a timestamp of `m` microseconds, the schema
payload's surviving operation on `availableFrom_unix` writes the truncated
epoch seconds. -/
theorem lastOp_schemaListings_availableFrom (d : Doc) (m : Int)
    (hav : getField d "availableFrom" = some (Value.vTimestamp m)) :
    lastOp (schemaListingsPayload d) "availableFrom_unix" =
      some (FieldOp.setVal (Value.vInt (timestampSeconds m))) := by
  have hkey : "availableFrom" ++ "_unix" = "availableFrom_unix" := rfl
  have hms : lastOp (msToTimestampPayload ["createdAt", "updatedAt"] d)
      "availableFrom_unix" = none := by
    apply lastOp_msToTimestamp_none
    decide
  have htail : lastOp (unixBackfillPayload ["availableUntil"] d)
      "availableFrom_unix" = none := by
    apply lastOp_unixBackfill_none
    decide
  have hhead := lastOp_unixBackfill_head "availableFrom" ["availableUntil"] d m hav
    (by rw [hkey]; exact htail)
  rw [hkey] at hhead
  unfold schemaListingsPayload
  rw [lastOp_append, hms, hhead]

/-- With `createdAt` holding the number `n` (milliseconds), the schema
payload's surviving operation on `createdAt` writes the timestamp at
`n * 1000` microseconds. -/
theorem lastOp_schemaListings_createdAt (d : Doc) (n : Int)
    (hc : getField d "createdAt" = some (Value.vInt n)) :
    lastOp (schemaListingsPayload d) "createdAt" =
      some (FieldOp.setVal (Value.vTimestamp (n * 1000))) := by
  have hunix : lastOp (unixBackfillPayload ["availableFrom", "availableUntil"] d)
      "createdAt" = none := by
    apply lastOp_unixBackfill_none
    decide
  have hupd : lastOp (msToTimestampPayload ["updatedAt"] d) "createdAt" = none := by
    apply lastOp_msToTimestamp_none
    decide
  have hhead := lastOp_msToTimestamp_head "createdAt" ["updatedAt"] d n hc hupd
  unfold schemaListingsPayload
  rw [lastOp_append, hhead]

theorem lookupStr_mem (m : VMap) (s t : String) (h : lookupStr m s = some t) :
    ∃ e ∈ m, e.2 = t := by
  induction m with
  | nil => cases h
  | cons e rest ih =>
    by_cases he : e.1 = s
    · simp only [lookupStr, he, if_true, Option.some.injEq] at h
      exact ⟨e, List.mem_cons_self _ _, h⟩
    · simp only [lookupStr, he, if_false] at h
      obtain ⟨e', h1, h2⟩ := ih h
      exact ⟨e', List.mem_cons_of_mem _ h1, h2⟩

/-- On a string value, a replacement is staged exactly when the value is a
key of the map, provided every mapped value is non-empty (Python's
`if translated_value:` truthiness). -/
theorem stageContentField_scalar (m : VMap) (s : String)
    (hm : ∀ e ∈ m, e.2 ≠ "") :
    (stageContentField m (Value.vStr s)).isSome = (lookupStr m s).isSome := by
  simp only [stageContentField]
  cases hl : lookupStr m s with
  | none => rfl
  | some t =>
    obtain ⟨e, he, het⟩ := lookupStr_mem m s t hl
    have ht : ¬ (t = "") := by rw [← het]; exact hm e he
    simp [ht]

theorem translateSeq_fst (m : VMap) (xs : List Value) :
    (translateSeq m xs).1 = xs.map (trElem m) := by
  induction xs with
  | nil => rfl
  | cons x rest ih => simp [translateSeq, ih]

theorem translateSeq_snd (m : VMap) (xs : List Value) :
    ((translateSeq m xs).2 = true) ↔ xs.map (trElem m) ≠ xs := by
  induction xs with
  | nil => simp [translateSeq]
  | cons x rest ih =>
    simp only [translateSeq, List.map_cons, Bool.or_eq_true, decide_eq_true_eq, ih]
    constructor
    · intro h hcons
      rw [List.cons_eq_cons] at hcons
      rcases h with h | h
      · exact h hcons.1
      · exact h hcons.2
    · intro h
      by_cases hx : trElem m x = x
      · right
        intro hr
        exact h (by rw [hx, hr])
      · exact Or.inl hx

/-- On a list value, a replacement is staged exactly when the element-wise
translation changed at least one element. -/
theorem stageContentField_list (m : VMap) (xs : List Value) :
    ((stageContentField m (Value.vList xs)).isSome = true) ↔
      xs.map (trElem m) ≠ xs := by
  rw [← translateSeq_snd m xs]
  simp only [stageContentField]
  by_cases hc : (translateSeq m xs).2 <;> simp [hc]

theorem renamePayload_eq_nil (fm : List (String × String)) (d : Doc) :
    renamePayload fm d = [] ↔ ∀ pr ∈ fm, getField d pr.1 = none := by
  induction fm with
  | nil => simp [renamePayload]
  | cons pr rest ih =>
    simp only [renamePayload]
    cases hg : getField d pr.1 with
    | none => simp [ih, hg]
    | some v => simp [hg]

theorem filter_replicate_pos {α : Type} (p : α → Bool) (x : α)
    (hp : p x = true) (n : Nat) :
    (List.replicate n x).filter p = List.replicate n x := by
  induction n with
  | zero => rfl
  | succ n ih => simp [List.replicate_succ, List.filter_cons, hp, ih]

theorem stagedUpdates_replicate (fn : Doc → Payload) (x : String × Doc)
    (n : Nat) (hx : ¬ (fn x.2 = [])) :
    (stagedUpdates fn (List.replicate n x)).length = n := by
  unfold stagedUpdates
  rw [filter_replicate_pos _ x (by simp [hx]) n]
  simp

/-- Field names the i18n listings engine is allowed to touch. -/
def i18nListingsAllowedFields : List String :=
  "source_language" ::
    (I18N_LISTINGS_FIELDS_TO_RENAME.map Prod.fst ++
     I18N_LISTINGS_FIELDS_TO_RENAME.map Prod.snd ++
     I18N_LISTINGS_FIELDS_TO_DELETE)

theorem i18nListingsPayload_keys (d : Doc) :
    ∀ e ∈ i18nListingsPayload d, e.1 ∈ i18nListingsAllowedFields := by
  intro e he
  unfold i18nListingsPayload at he
  simp only [i18nListingsAllowedFields, List.mem_cons, List.mem_append]
  rcases List.mem_append.mp he with he | he
  · rcases List.mem_append.mp he with he | he
    · by_cases hs : hasField d "sourceLanguage"
      · rw [if_pos hs] at he
        cases he
      · rw [if_neg hs] at he
        rw [List.mem_singleton.mp he]
        exact Or.inl rfl
    · obtain ⟨pr, h1, _, h3⟩ := renamePayload_keys _ d e he
      rcases h3 with h3 | h3
      · exact Or.inr (Or.inl (Or.inl (h3 ▸ List.mem_map_of_mem Prod.fst h1)))
      · exact Or.inr (Or.inl (Or.inr (h3 ▸ List.mem_map_of_mem Prod.snd h1)))
  · exact Or.inr (Or.inr (deletePayload_keys _ d e he))

/-- Field names the rename engine is allowed to touch. -/
def caseAllowedFields (fm : List (String × String)) : List String :=
  fm.map Prod.fst ++ fm.map Prod.snd

/-- Field names the schema listings engine is allowed to touch. -/
def schemaListingsAllowedFields : List String :=
  ["availableFrom_unix", "availableUntil_unix", "createdAt", "updatedAt"]

/-- Field names the content engine is allowed to touch. -/
def contentAllowedFields (rules : List (String × VMap)) : List String :=
  rules.map Prod.fst

theorem schemaListingsPayload_keys (d : Doc) :
    ∀ e ∈ schemaListingsPayload d, e.1 ∈ schemaListingsAllowedFields := by
  intro e he
  unfold schemaListingsPayload at he
  rcases List.mem_append.mp he with he | he
  · obtain ⟨f, hf, hfe⟩ := unixBackfillPayload_keys _ d e he
    rcases List.mem_cons.mp hf with rfl | hf
    · rw [hfe]
      decide
    · rcases List.mem_cons.mp hf with rfl | hf
      · rw [hfe]
        decide
      · cases hf
  · have := msToTimestampPayload_keys _ d e he
    rcases List.mem_cons.mp this with h | h
    · rw [h]
      decide
    · rcases List.mem_cons.mp h with h | h
      · rw [h]
        decide
      · cases h

end Roomista

/-!
## Frame helpers
-/

namespace Roomista

theorem renamePayload_keys_allowed (fm : List (String × String)) (d : Doc) :
    ∀ e ∈ renamePayload fm d, e.1 ∈ caseAllowedFields fm := by
  intro e he
  obtain ⟨pr, h1, _, h3⟩ := renamePayload_keys fm d e he
  unfold caseAllowedFields
  rcases h3 with h3 | h3
  · exact List.mem_append.mpr (Or.inl (h3 ▸ List.mem_map_of_mem Prod.fst h1))
  · exact List.mem_append.mpr (Or.inr (h3 ▸ List.mem_map_of_mem Prod.snd h1))

theorem contentPayload_keys_allowed (rules : List (String × VMap)) (d : Doc) :
    ∀ e ∈ contentPayload rules d, e.1 ∈ contentAllowedFields rules := by
  intro e he
  obtain ⟨r, h1, h2⟩ := contentPayload_keys rules d e he
  exact h2 ▸ List.mem_map_of_mem Prod.fst h1

theorem caseApply_frame (fm : List (String × String)) (d : Doc) (k : String)
    (hk : k ∉ caseAllowedFields fm) :
    getField (caseApply fm d) k = getField d k := by
  apply getField_applyPayload_frame
  intro e he hek
  exact hk (hek ▸ renamePayload_keys_allowed fm d e he)

theorem i18nListingsApply_frame (d : Doc) (k : String)
    (hk : k ∉ i18nListingsAllowedFields) :
    getField (i18nListingsApply d) k = getField d k := by
  apply getField_applyPayload_frame
  intro e he hek
  exact hk (hek ▸ i18nListingsPayload_keys d e he)

theorem schemaListingsApply_frame (d : Doc) (k : String)
    (hk : k ∉ schemaListingsAllowedFields) :
    getField (schemaListingsApply d) k = getField d k := by
  apply getField_applyPayload_frame
  intro e he hek
  exact hk (hek ▸ schemaListingsPayload_keys d e he)

theorem contentApply_frame (rules : List (String × VMap)) (d : Doc) (k : String)
    (hk : k ∉ contentAllowedFields rules) :
    getField (contentApply rules d) k = getField d k := by
  apply getField_applyPayload_frame
  intro e he hek
  exact hk (hek ▸ contentPayload_keys_allowed rules d e he)

theorem runCommits_doc_ids (fn : Doc → Payload) (docs : List (String × Doc)) :
    ∀ b ∈ runCommits fn docs, ∀ u ∈ b, u.1 ∈ docs.map Prod.fst := by
  intro b hb u hu
  have hm : u ∈ (runCommits fn docs).flatten := List.mem_flatten.mpr ⟨b, hb, hu⟩
  rw [runCommits_flatten] at hm
  unfold stagedUpdates at hm
  obtain ⟨x, hx, hxu⟩ := List.mem_map.mp hm
  rw [← hxu]
  exact List.mem_map_of_mem Prod.fst (List.mem_of_mem_filter hx)

/-!
## Script-level model (configuration fail-fast)

`migrate_case_style.py` aborts at module load when the `config` package
cannot be imported, and in `main` when the credential file named by the
configuration does not exist or the client cannot be initialised; all
three paths print an error and `sys.exit(1)` before any collection is
streamed or any batch attempted.
-/

/-- The environment a script run depends on. -/
structure Env where
  configImportOk : Bool
  credFileExists : Bool
  initOk : Bool
  listings : List (String × Doc)
  users : List (String × Doc)

/-- An access to the document store. -/
inductive StoreOp : Type where
  | streamCollection : String → StoreOp
  | commitBatch : List StagedUpdate → StoreOp

def collectionStoreOps (name : String) (fn : Doc → Payload)
    (docs : List (String × Doc)) : List StoreOp :=
  StoreOp.streamCollection name :: (runCommits fn docs).map StoreOp.commitBatch

/-- Top-level control flow of `migrate_case_style.py`: exit status and the
sequence of store accesses performed. -/
def caseStyleScript (env : Env) : Nat × List StoreOp :=
  if env.configImportOk = false then (1, [])
  else if env.credFileExists = false then (1, [])
  else if env.initOk = false then (1, [])
  else (0, collectionStoreOps "listings" (renamePayload LISTINGS_FIELD_MAP) env.listings
        ++ collectionStoreOps "users" (renamePayload USERS_FIELD_MAP) env.users)

/-!
## The claims
-/

/-- C1 (code_bug): the spec's idempotence invariant fails on the code.  On
the document `{sourceLanguage: "es"}`, the first run of
`migrate_name_fields_i18n.migrate_listings` only deletes `sourceLanguage`
(the `source_language` default is keyed on the absence of the *old* field
name, which the same payload deletes), so the second run stages
`{source_language: "en"}` and changes the document — a second run does not
stage zero changes.  The schema engine likewise restages the
`availableFrom_unix` backfill on every run because its applicability test
is the presence of `availableFrom`, which migration never removes. -/
theorem idempotence_failing_input :
    i18nListingsApply [("sourceLanguage", Value.vStr "es")] = [] ∧
    i18nListingsPayload [] = [("source_language", FieldOp.setVal (Value.vStr "en"))] ∧
    ¬ (i18nListingsApply (i18nListingsApply [("sourceLanguage", Value.vStr "es")]) =
      i18nListingsApply [("sourceLanguage", Value.vStr "es")]) ∧
    schemaListingsPayload (schemaListingsApply [("availableFrom", Value.vTimestamp 0)]) =
      [("availableFrom_unix", FieldOp.setVal (Value.vInt 0))] := by decide

/-- C2 (amended): a run that stages `u` document updates performs `u / 499`
in-loop commits plus one final commit exactly when `u > 0` — this equals
`⌈u / 499⌉` except when `u` is a positive multiple of 499, where one extra,
empty final commit is issued — and reports `u` as the updated-document
count.  In particular 1000 staged updates produce exactly 3 commits and a
collection staging nothing produces zero commits. -/
theorem commit_count_formula (fn : Doc → Payload) (docs : List (String × Doc)) :
    ((runCommits fn docs).length =
      (stagedUpdates fn docs).length / 499 +
        (if (stagedUpdates fn docs).length = 0 then 0 else 1)) ∧
    reportedCount fn docs = (stagedUpdates fn docs).length ∧
    (runCommits (renamePayload LISTINGS_FIELD_MAP)
      (List.replicate 1000 ("x", [("hasAC", Value.vBool true)]))).length = 3 := by
  refine ⟨runCommits_length fn docs, reportedCount_eq fn docs, ?_⟩
  have hlen := stagedUpdates_replicate (renamePayload LISTINGS_FIELD_MAP)
    ("x", [("hasAC", Value.vBool true)]) 1000 (by decide)
  rw [runCommits_length, hlen]
  decide

/-- C2 counterexample: with exactly 499 staged updates the run performs 2
commits — one full batch of 499 in the loop and one final, empty commit —
not `⌈499 / 499⌉ = 1`; in particular the final commit is issued even
though the remaining batch is empty. -/
theorem commit_count_ceil_counterexample :
    (runCommits (renamePayload LISTINGS_FIELD_MAP)
      (List.replicate 499 ("x", [("hasAC", Value.vBool true)]))).length = 2 ∧
    (499 + 499 - 1) / 499 = 1 ∧
    (runCommits (renamePayload LISTINGS_FIELD_MAP)
      (List.replicate 499 ("x", [("hasAC", Value.vBool true)]))).getLast? = some [] := by
  have hlen := stagedUpdates_replicate (renamePayload LISTINGS_FIELD_MAP)
    ("x", [("hasAC", Value.vBool true)]) 499 (by decide)
  obtain ⟨h1, h2, h3, h4, h5⟩ := runLoop_spec (renamePayload LISTINGS_FIELD_MAP)
    (List.replicate 499 ("x", [("hasAC", Value.vBool true)]))
  refine ⟨?_, by decide, ?_⟩
  · rw [runCommits_length, hlen]
    decide
  · unfold runCommits
    have hs : (runLoop (renamePayload LISTINGS_FIELD_MAP)
        (List.replicate 499 ("x", [("hasAC", Value.vBool true)]))).staged > 0 := by
      rw [h1, hlen]
      decide
    rw [if_pos hs]
    have hb : (runLoop (renamePayload LISTINGS_FIELD_MAP)
        (List.replicate 499 ("x", [("hasAC", Value.vBool true)]))).batch = [] := by
      apply List.length_eq_zero.mp
      rw [h4, hlen]
    rw [hb, List.getLast?_concat]

/-- C3 (amended): the committed updates of a run, concatenated in commit
order, are exactly the documents with a non-empty staged payload, each
once, in stream order — so such a document receives exactly one committed
update and a document with an empty payload receives none.  For the
rename engine of `migrate_case_style.py` the payload is empty exactly when
no field-map source field is present, as the claim states; the
counterexample shows the i18n engine also writes documents containing no
rule-applicable field at all. -/
theorem write_discipline (fn : Doc → Payload) (docs : List (String × Doc)) :
    (runCommits fn docs).flatten = stagedUpdates fn docs ∧
    (∀ (fm : List (String × String)) (d : Doc),
      renamePayload fm d = [] ↔ ∀ pr ∈ fm, getField d pr.1 = none) :=
  ⟨runCommits_flatten fn docs, fun fm d => renamePayload_eq_nil fm d⟩

theorem write_discipline_witness :
    (runCommits (renamePayload USERS_FIELD_MAP)
      [("u1", [("hasPets", Value.vBool true)])]).flatten =
      stagedUpdates (renamePayload USERS_FIELD_MAP)
        [("u1", [("hasPets", Value.vBool true)])] ∧
    (renamePayload USERS_FIELD_MAP [] = [] ↔
      ∀ pr ∈ USERS_FIELD_MAP, getField [] pr.1 = none) :=
  ⟨(write_discipline (renamePayload USERS_FIELD_MAP)
      [("u1", [("hasPets", Value.vBool true)])]).1,
   (write_discipline (renamePayload USERS_FIELD_MAP) []).2 USERS_FIELD_MAP []⟩

/-- C3 counterexample: the empty document contains no field at all — in
particular no rule-applicable one — yet a run of the i18n listings engine
over it stages and commits one update (the `source_language` default is
triggered by the *absence* of `sourceLanguage`). -/
theorem write_discipline_counterexample :
    (∀ k : String, getField ([] : Doc) k = none) ∧
    runCommits i18nListingsPayload [("d1", [])] =
      [[("d1", [("source_language", FieldOp.setVal (Value.vStr "en"))])]] := by
  refine ⟨fun k => rfl, by decide⟩

/-- C4 (amended): when `availableFrom` holds a timestamp of `m`
microseconds, migration writes `availableFrom_unix = m` in epoch seconds
*truncated toward zero* (Python `int()`), which agrees with `floor` for
every non-negative epoch time; and a document with
`createdAt = 1700000000000` (milliseconds) gets `createdAt` set to the
timestamp at 1700000000 seconds UTC.  The counterexample shows truncation
and floor part ways on a fractional pre-1970 timestamp. -/
theorem backfill_values (d : Doc) (m : Int)
    (hav : getField d "availableFrom" = some (Value.vTimestamp m)) :
    getField (schemaListingsApply d) "availableFrom_unix" =
      some (Value.vInt (timestampSeconds m)) ∧
    (0 ≤ m → timestampSeconds m = Int.fdiv m 1000000) ∧
    (∀ d' : Doc, getField d' "createdAt" = some (Value.vInt 1700000000000) →
      getField (schemaListingsApply d') "createdAt" =
        some (Value.vTimestamp 1700000000000000)) := by
  refine ⟨?_, ?_, ?_⟩
  · rw [schemaListingsApply, getField_applyPayload,
      lastOp_schemaListings_availableFrom d m hav]
  · intro hm
    unfold timestampSeconds
    rw [Int.tdiv_eq_ediv hm (by norm_num), Int.fdiv_eq_ediv m (by norm_num)]
  · intro d' hc
    rw [schemaListingsApply, getField_applyPayload,
      lastOp_schemaListings_createdAt d' 1700000000000 hc]
    show some (Value.vTimestamp (1700000000000 * 1000)) =
      some (Value.vTimestamp 1700000000000000)
    norm_num

theorem backfill_values_witness :
    getField (schemaListingsApply [("availableFrom", Value.vTimestamp 1700000000500000),
        ("createdAt", Value.vInt 1700000000000)]) "availableFrom_unix" =
      some (Value.vInt 1700000000) ∧
    getField (schemaListingsApply [("availableFrom", Value.vTimestamp 1700000000500000),
        ("createdAt", Value.vInt 1700000000000)]) "createdAt" =
      some (Value.vTimestamp 1700000000000000) := by
  have h := backfill_values [("availableFrom", Value.vTimestamp 1700000000500000),
      ("createdAt", Value.vInt 1700000000000)] 1700000000500000 (by decide)
  refine ⟨?_, h.2.2 _ (by decide)⟩
  have h1 := h.1
  rw [(by decide : timestampSeconds 1700000000500000 = 1700000000)] at h1
  exact h1

/-- C4 counterexample: for `availableFrom` half a second before the epoch
(−500000 microseconds) the code writes `availableFrom_unix = 0`
(truncation toward zero), while the floor of the epoch seconds is −1. -/
theorem backfill_floor_counterexample :
    getField (schemaListingsApply [("availableFrom", Value.vTimestamp (-500000))])
      "availableFrom_unix" = some (Value.vInt 0) ∧
    Int.fdiv (-500000) 1000000 = -1 ∧
    ¬ ((0 : Int) = -1) := by decide

/-- C5 (amended): renaming is correct for a pair `(o, n)` provided no
*other applicable* pair shares the target `n` and no pair targets `o` —
side conditions every document satisfies under both `migrate_case_style`
field maps (all targets distinct, no target is a source), but which the
i18n listings rename table violates: `availableUntil_unix` and
`availableUntilUnix` both map to `available_until_unix`, and when both
are present the later pair's value wins. -/
theorem rename_correctness (fm : List (String × String)) (d : Doc)
    (o n : String) (v : Value)
    (hmem : (o, n) ∈ fm)
    (hv : getField d o = some v)
    (hn : getField d n = none)
    (huniq : ∀ pr ∈ fm, pr.2 = n → pr = (o, n) ∨ getField d pr.1 = none)
    (htgt : ∀ pr ∈ fm, pr.2 ≠ o) :
    getField (caseApply fm d) n = some v ∧ getField (caseApply fm d) o = none := by
  constructor
  · rw [caseApply, getField_applyPayload,
      lastOp_renamePayload_target fm d o n v hmem hv hn huniq]
  · rw [caseApply, getField_applyPayload,
      lastOp_renamePayload_source fm d o
        (by rw [hv]; exact fun h => Option.noConfusion h) ⟨(o, n), hmem, rfl⟩ htgt]

theorem rename_correctness_witness :
    getField (caseApply LISTINGS_FIELD_MAP [("availableFrom", Value.vInt 7)])
      "available_from" = some (Value.vInt 7) ∧
    getField (caseApply LISTINGS_FIELD_MAP [("availableFrom", Value.vInt 7)])
      "availableFrom" = none :=
  rename_correctness LISTINGS_FIELD_MAP [("availableFrom", Value.vInt 7)]
    "availableFrom" "available_from" (Value.vInt 7)
    (by decide) (by decide) (by decide) (by decide) (by decide)

/-- C5 counterexample: the i18n listings rename table maps both
`availableUntil_unix` and `availableUntilUnix` to `available_until_unix`;
on a document holding `availableUntil_unix = 1`, `availableUntilUnix = 2`
and no `available_until_unix`, migration leaves
`available_until_unix = 2`, not the value 1 of the pair's source, refuting
the claim for the pair `(availableUntil_unix, available_until_unix)`. -/
theorem rename_duplicate_target_counterexample :
    ("availableUntil_unix", "available_until_unix") ∈ I18N_LISTINGS_FIELDS_TO_RENAME ∧
    getField [("availableUntil_unix", Value.vInt 1), ("availableUntilUnix", Value.vInt 2)]
      "availableUntil_unix" = some (Value.vInt 1) ∧
    getField [("availableUntil_unix", Value.vInt 1), ("availableUntilUnix", Value.vInt 2)]
      "available_until_unix" = none ∧
    getField (i18nListingsApply
      [("availableUntil_unix", Value.vInt 1), ("availableUntilUnix", Value.vInt 2)])
      "available_until_unix" = some (Value.vInt 2) ∧
    ¬ (some (Value.vInt 2) = some (Value.vInt 1)) := by decide

/-- C6: for every configured content rule, a replacement of a string value
is staged exactly when the value is a key of the rule's `value_map`
(every configured mapped value is a non-empty string, so Python's
truthiness test coincides with the lookup succeeding); a document with
`role = "inquilino"` ends with `role = "tenant"`, and one with an
unmapped value stages nothing. -/
theorem translate_scalar :
    (∀ r ∈ USERS_CONTENT_RULES, ∀ s : String,
      (stageContentField r.2 (Value.vStr s)).isSome = (lookupStr r.2 s).isSome) ∧
    (∀ r ∈ LISTINGS_CONTENT_RULES, ∀ s : String,
      (stageContentField r.2 (Value.vStr s)).isSome = (lookupStr r.2 s).isSome) ∧
    contentApply USERS_CONTENT_RULES [("role", Value.vStr "inquilino")] =
      [("role", Value.vStr "tenant")] ∧
    contentPayload USERS_CONTENT_RULES [("role", Value.vStr "unmapped_value")] = [] := by
  have HU : ∀ r ∈ USERS_CONTENT_RULES, ∀ e ∈ r.2, ¬ (e.2 = "") := by decide
  have HL : ∀ r ∈ LISTINGS_CONTENT_RULES, ∀ e ∈ r.2, ¬ (e.2 = "") := by decide
  exact ⟨fun r hr s => stageContentField_scalar r.2 s (fun e he => HU r hr e he),
         fun r hr s => stageContentField_scalar r.2 s (fun e he => HL r hr e he),
         by decide, by decide⟩

theorem translate_scalar_witness :
    (stageContentField [("inquilino", "tenant"), ("casero", "landlord")]
        (Value.vStr "inquilino")).isSome =
      (lookupStr [("inquilino", "tenant"), ("casero", "landlord")] "inquilino").isSome :=
  translate_scalar.1 ("role", [("inquilino", "tenant"), ("casero", "landlord")])
    (by decide) "inquilino"

/-- C7: on a sequence value every element is mapped through the rule's
`value_map` with unmapped elements passed through in place, and a
replacement of the whole sequence is staged exactly when at least one
element changed; `["Independencia", "Unknown"]` becomes
`["independence", "Unknown"]` and that partial translation does stage an
update. -/
theorem translate_sequence :
    (∀ (m : VMap) (xs : List Value), (translateSeq m xs).1 = xs.map (trElem m)) ∧
    (∀ (m : VMap) (xs : List Value),
      ((translateSeq m xs).2 = true) ↔ xs.map (trElem m) ≠ xs) ∧
    (∀ (m : VMap) (xs : List Value),
      ((stageContentField m (Value.vList xs)).isSome = true) ↔ xs.map (trElem m) ≠ xs) ∧
    contentApply USERS_CONTENT_RULES
      [("flatmate_traits", Value.vList [Value.vStr "Independencia", Value.vStr "Unknown"])] =
      [("flatmate_traits", Value.vList [Value.vStr "independence", Value.vStr "Unknown"])] ∧
    ¬ (contentPayload USERS_CONTENT_RULES
      [("flatmate_traits", Value.vList [Value.vStr "Independencia", Value.vStr "Unknown"])] = []) :=
  ⟨translateSeq_fst, translateSeq_snd, stageContentField_list, by decide, by decide⟩

/-- C8: between loop steps the in-flight batch always holds fewer than 499
staged updates; a batch is committed inside the loop exactly as it reaches
499 (every in-loop commit has exactly 499), and every committed batch —
final commit included — holds at most 499 updates, one below the store's
limit of 500. -/
theorem batch_size_invariant (fn : Doc → Payload) (docs : List (String × Doc)) :
    (runLoop fn docs).batch.length < 499 ∧
    (∀ c ∈ (runLoop fn docs).commits, c.length = 499) ∧
    (∀ c ∈ runCommits fn docs, c.length ≤ 499) :=
  ⟨runLoop_batch_lt fn docs, (runLoop_spec fn docs).2.2.2.2, runCommits_sizes fn docs⟩

theorem batch_size_invariant_witness :
    (runLoop (renamePayload USERS_FIELD_MAP)
      [("u1", [("hasPets", Value.vBool true)])]).batch.length < 499 ∧
    ([("u1", [("has_pets", FieldOp.setVal (Value.vBool true)),
        ("hasPets", FieldOp.delField)])] : List StagedUpdate).length ≤ 499 :=
  ⟨(batch_size_invariant (renamePayload USERS_FIELD_MAP)
      [("u1", [("hasPets", Value.vBool true)])]).1,
   (batch_size_invariant (renamePayload USERS_FIELD_MAP)
      [("u1", [("hasPets", Value.vBool true)])]).2.2 _ (by decide)⟩

/-- C9: when the configuration module cannot be imported or the credential
file it names does not exist, the script exits non-zero and performs no
store access at all — no collection is streamed and no batch commit is
attempted. -/
theorem config_error_fail_fast (env : Env)
    (h : env.configImportOk = false ∨ env.credFileExists = false) :
    ¬ ((caseStyleScript env).1 = 0) ∧ (caseStyleScript env).2 = [] := by
  rcases h with h | h
  · simp [caseStyleScript, h]
  · cases hc : env.configImportOk with
    | false => simp [caseStyleScript, hc]
    | true => simp [caseStyleScript, hc, h]

theorem config_error_fail_fast_witness :
    ¬ ((caseStyleScript ⟨true, false, true, [], []⟩).1 = 0) ∧
    (caseStyleScript ⟨true, false, true, [], []⟩).2 = [] :=
  config_error_fail_fast ⟨true, false, true, [], []⟩ (Or.inr rfl)

/-- C10: every engine's staged payload only mentions field names drawn
from its configured rule tables — rename sources and targets, the i18n
delete list and the fixed `source_language` field, the schema engine's
derived `_unix` names and coerced date fields, and the content rules'
field names; any other field keeps its value unchanged through the
engine; and a run only ever commits updates for document ids that were
streamed from the collection (it never creates or deletes a document). -/
theorem frame_property :
    (∀ (fm : List (String × String)) (d : Doc),
      ∀ e ∈ renamePayload fm d, e.1 ∈ caseAllowedFields fm) ∧
    (∀ d : Doc, ∀ e ∈ i18nListingsPayload d, e.1 ∈ i18nListingsAllowedFields) ∧
    (∀ d : Doc, ∀ e ∈ schemaListingsPayload d, e.1 ∈ schemaListingsAllowedFields) ∧
    (∀ (rules : List (String × VMap)) (d : Doc),
      ∀ e ∈ contentPayload rules d, e.1 ∈ contentAllowedFields rules) ∧
    (∀ (fm : List (String × String)) (d : Doc) (k : String),
      k ∉ caseAllowedFields fm → getField (caseApply fm d) k = getField d k) ∧
    (∀ (d : Doc) (k : String),
      k ∉ i18nListingsAllowedFields → getField (i18nListingsApply d) k = getField d k) ∧
    (∀ (d : Doc) (k : String),
      k ∉ schemaListingsAllowedFields → getField (schemaListingsApply d) k = getField d k) ∧
    (∀ (rules : List (String × VMap)) (d : Doc) (k : String),
      k ∉ contentAllowedFields rules → getField (contentApply rules d) k = getField d k) ∧
    (∀ (fn : Doc → Payload) (docs : List (String × Doc)),
      ∀ b ∈ runCommits fn docs, ∀ u ∈ b, u.1 ∈ docs.map Prod.fst) :=
  ⟨renamePayload_keys_allowed, i18nListingsPayload_keys, schemaListingsPayload_keys,
   contentPayload_keys_allowed, caseApply_frame, i18nListingsApply_frame,
   schemaListingsApply_frame, contentApply_frame, runCommits_doc_ids⟩

theorem frame_property_witness :
    getField (caseApply LISTINGS_FIELD_MAP [("price", Value.vInt 3)]) "price" =
      getField [("price", Value.vInt 3)] "price" :=
  frame_property.2.2.2.2.1 LISTINGS_FIELD_MAP [("price", Value.vInt 3)] "price" (by decide)

end Roomista
